import Mathlib

/-!
Shallow embedding of `src/typed_event.ts` (rmbar/tsbasics).

The source defines a typed event channel: `makeTypedEventController<T>()`
returns an object holding a private array `_listeners`; `addListener`
pushes a listener onto the array; `addPassthroughListener(controller)`
calls `addListener(controller.fire.bind(controller))`; `fire(data)` runs
`for (let listener of this._listeners) listener(data)`.

Embedding choices, all taken from the source and the host-language
(JavaScript) semantics it relies on:

* A *world* holds every channel's listener array (channels are addressed
  by index, `ChannelId`) plus an observation trace recording each
  listener invocation that logs.
* Listeners are closures over the world; to keep the store first-order
  they are represented syntactically as lists of atomic `Action`s:
  logging a tag with the received payload, throwing an exception,
  firing another channel (exactly the shape `controller.fire.bind(controller)`
  produces), and re-entrantly registering a listener on a channel.
* `fire` is modelled after the JavaScript `for...of` array iteration the
  source uses: the iterator keeps an index, and at each step compares it
  against the array's *current* length and reads the *current* element —
  a live view, not a snapshot.  An exception thrown by a listener aborts
  the loop and propagates (`RunResult.thrown`), carrying the world as
  mutated so far.
* Since passthrough listeners can make `fire` recurse arbitrarily, the
  interpreter is indexed by fuel; `none` means fuel ran out and makes no
  statement about the program.
-/

namespace TsBasics

abbrev ChannelId := Nat

/-- Syntactic listener bodies: the atomic effects a registered listener
can perform against the channel system during its invocation. -/
inductive Action (T : Type) where
  | log (tag : Nat)
  | throwErr (code : Nat)
  | fireChan (target : ChannelId)
  | addL (target : ChannelId) (body : List (Action T))

/-- A listener is a sequence of atomic actions run on one payload. -/
abbrev Listener (T : Type) := List (Action T)

/-- The state of the channel system: each channel's `_listeners` array,
plus the observation trace of `(tag, payload)` log events. -/
structure World (T : Type) where
  channels : List (List (Listener T))
  trace : List (Nat × T)

variable {T : Type}

/-- The `_listeners` array of channel `c` (source line 78). -/
def listenersOf (w : World T) (c : ChannelId) : List (Listener T) :=
  w.channels.getD c []

/-- Record one listener invocation observation. -/
def addTrace (w : World T) (tag : Nat) (d : T) : World T :=
  ⟨w.channels, w.trace ++ [(tag, d)]⟩

/-- `makeTypedEventController` (source lines 74-101): allocates a fresh
channel with an empty `_listeners` array and returns its handle. -/
def makeTypedEventController (w : World T) : ChannelId × World T :=
  (w.channels.length, ⟨w.channels ++ [[]], w.trace⟩)

/-- `addListener` (source lines 81-84): `this._listeners.push(listener)`. -/
def addListener (w : World T) (c : ChannelId) (l : Listener T) : World T :=
  ⟨w.channels.set c (listenersOf w c ++ [l]), w.trace⟩

/-- The derived listener `controller.fire.bind(controller)`: a body that,
given payload `d`, invokes the target channel's `fire` with `d`. -/
def passthroughL (target : ChannelId) : Listener T :=
  [Action.fireChan target]

/-- `addPassthroughListener` (source lines 87-90):
`this.addListener(controller.fire.bind(controller))`. -/
def addPassthroughListener (w : World T) (c : ChannelId) (target : ChannelId) : World T :=
  addListener w c (passthroughL target)

/-- Outcome of running listener code: normal completion, or an exception
(identified by its numeric code) propagating out, in both cases with the
world as mutated so far. -/
inductive RunResult (T : Type) where
  | ok (w : World T)
  | thrown (e : Nat) (w : World T)

/-- The world carried by a run result. -/
def RunResult.world : RunResult T → World T
  | .ok w => w
  | .thrown _ w => w

mutual

/-- Run one atomic listener action on payload `d`. -/
def runAction : Nat → World T → T → Action T → Option (RunResult T)
  | 0, _, _, _ => none
  | fuel + 1, w, d, a =>
    match a with
    | .log tag => some (.ok (addTrace w tag d))
    | .throwErr e => some (.thrown e w)
    | .fireChan c => fireFrom fuel w c d 0
    | .addL c body => some (.ok (addListener w c body))

/-- Run a listener body (a list of actions) on payload `d`; an exception
aborts the remainder. -/
def runActions : Nat → World T → T → List (Action T) → Option (RunResult T)
  | 0, _, _, _ => none
  | fuel + 1, w, d, acts =>
    match acts with
    | [] => some (.ok w)
    | a :: rest =>
      match runAction fuel w d a with
      | none => none
      | some (.thrown e w') => some (.thrown e w')
      | some (.ok w') => runActions fuel w' d rest

/-- The `for (let listener of this._listeners) listener(data)` loop of
`fire` (source lines 93-99), from iterator position `i`.  JavaScript
array iterators are live: each step re-checks `i` against the current
length and reads the current element, so entries pushed during the loop
are visited.  An exception thrown by a listener aborts the loop and
propagates unchanged. -/
def fireFrom : Nat → World T → ChannelId → T → Nat → Option (RunResult T)
  | 0, _, _, _, _ => none
  | fuel + 1, w, c, d, i =>
    let ls := listenersOf w c
    if h : i < ls.length then
      match runActions fuel w d ls[i] with
      | none => none
      | some (.thrown e w') => some (.thrown e w')
      | some (.ok w') => fireFrom fuel w' c d (i + 1)
    else
      some (.ok w)

end

/-- `fire` (source lines 93-99): iterate the listener array from the
start, invoking each listener with the payload. -/
def fire (fuel : Nat) (w : World T) (c : ChannelId) (d : T) : Option (RunResult T) :=
  fireFrom fuel w c d 0

/-- A log-only listener with the given tag: invoking it with payload `d`
appends `(tag, d)` to the trace and does nothing else. -/
def logL (tag : Nat) : Listener T :=
  [Action.log tag]

/-! ### Basic state lemmas -/

@[simp]
lemma listenersOf_mk (chs : List (List (Listener T))) (tr : List (Nat × T)) (c : ChannelId) :
    listenersOf (⟨chs, tr⟩ : World T) c = chs.getD c [] := rfl

@[simp]
lemma channels_addTrace (w : World T) (tag : Nat) (d : T) :
    (addTrace w tag d).channels = w.channels := rfl

@[simp]
lemma trace_addTrace (w : World T) (tag : Nat) (d : T) :
    (addTrace w tag d).trace = w.trace ++ [(tag, d)] := rfl

@[simp]
lemma listenersOf_addTrace (w : World T) (tag : Nat) (d : T) (c : ChannelId) :
    listenersOf (addTrace w tag d) c = listenersOf w c := rfl

@[simp]
lemma trace_addListener (w : World T) (c : ChannelId) (l : Listener T) :
    (addListener w c l).trace = w.trace := rfl

@[simp]
lemma length_channels_addListener (w : World T) (c : ChannelId) (l : Listener T) :
    (addListener w c l).channels.length = w.channels.length := by
  simp [addListener]

/-- Full description of registration's effect on every channel's array:
the targeted (existing) channel gets the new listener appended at the
end; every other channel is untouched. -/
lemma listenersOf_addListener (w : World T) (c : ChannelId) (l : Listener T) (ch : ChannelId) :
    listenersOf (addListener w c l) ch =
      if c = ch ∧ c < w.channels.length then listenersOf w ch ++ [l]
      else listenersOf w ch := by
  unfold addListener listenersOf
  simp only [listenersOf_mk, List.getD_eq_getElem?_getD, List.getElem?_set]
  by_cases hc : c = ch
  · subst hc
    by_cases hlt : c < w.channels.length
    · simp [hlt]
    · have : w.channels[c]? = none := List.getElem?_eq_none (Nat.le_of_not_lt hlt)
      simp [hlt, this]
  · simp [hc]

lemma listenersOf_addListener_self (w : World T) (c : ChannelId) (l : Listener T)
    (h : c < w.channels.length) :
    listenersOf (addListener w c l) c = listenersOf w c ++ [l] := by
  simp [listenersOf_addListener, h]

lemma listenersOf_addListener_ne (w : World T) (c : ChannelId) (l : Listener T)
    (ch : ChannelId) (h : c ≠ ch) :
    listenersOf (addListener w c l) ch = listenersOf w ch := by
  simp [listenersOf_addListener, h]

/-! ### Interpreter unfolding lemmas -/

lemma runActions_nil (fuel : Nat) (w : World T) (d : T) :
    runActions (fuel + 1) w d [] = some (.ok w) := rfl

lemma runAction_log (fuel : Nat) (w : World T) (d : T) (tag : Nat) :
    runAction (fuel + 1) w d (.log tag) = some (.ok (addTrace w tag d)) := rfl

lemma runAction_throwErr (fuel : Nat) (w : World T) (d : T) (e : Nat) :
    runAction (fuel + 1) w d (.throwErr e) = some (.thrown e w) := rfl

lemma runAction_fireChan (fuel : Nat) (w : World T) (d : T) (c : ChannelId) :
    runAction (fuel + 1) w d (.fireChan c) = fireFrom fuel w c d 0 := rfl

lemma runAction_addL (fuel : Nat) (w : World T) (d : T) (c : ChannelId) (body : Listener T) :
    runAction (fuel + 1) w d (.addL c body) = some (.ok (addListener w c body)) := rfl

lemma runActions_cons_ok (fuel : Nat) (w w' : World T) (d : T) (a : Action T)
    (rest : List (Action T)) (h : runAction fuel w d a = some (.ok w')) :
    runActions (fuel + 1) w d (a :: rest) = runActions fuel w' d rest := by
  rw [runActions, h]

lemma runActions_cons_thrown (fuel : Nat) (w w' : World T) (d : T) (a : Action T)
    (rest : List (Action T)) (e : Nat) (h : runAction fuel w d a = some (.thrown e w')) :
    runActions (fuel + 1) w d (a :: rest) = some (.thrown e w') := by
  rw [runActions, h]

lemma fireFrom_stop (fuel : Nat) (w : World T) (c : ChannelId) (d : T) (i : Nat)
    (h : ¬ i < (listenersOf w c).length) :
    fireFrom (fuel + 1) w c d i = some (.ok w) := by
  rw [fireFrom]
  simp [h]

lemma fireFrom_step_ok (fuel : Nat) (w w' : World T) (c : ChannelId) (d : T) (i : Nat)
    (h : i < (listenersOf w c).length)
    (hrun : runActions fuel w d ((listenersOf w c).get ⟨i, h⟩) = some (.ok w')) :
    fireFrom (fuel + 1) w c d i = fireFrom fuel w' c d (i + 1) := by
  rw [fireFrom]
  simp only [dif_pos h]
  rw [show (listenersOf w c)[i] = (listenersOf w c).get ⟨i, h⟩ from rfl, hrun]

lemma fireFrom_step_thrown (fuel : Nat) (w w' : World T) (c : ChannelId) (d : T) (i : Nat)
    (e : Nat) (h : i < (listenersOf w c).length)
    (hrun : runActions fuel w d ((listenersOf w c).get ⟨i, h⟩) = some (.thrown e w')) :
    fireFrom (fuel + 1) w c d i = some (.thrown e w') := by
  rw [fireFrom]
  simp only [dif_pos h]
  rw [show (listenersOf w c)[i] = (listenersOf w c).get ⟨i, h⟩ from rfl, hrun]

lemma fireFrom_at_end (fuel : Nat) (w : World T) (c : ChannelId) (d : T) (i : Nat)
    (h : (listenersOf w c).length ≤ i) (hf : 1 ≤ fuel) :
    fireFrom fuel w c d i = some (.ok w) := by
  obtain ⟨f, rfl⟩ : ∃ f, fuel = f + 1 := ⟨fuel - 1, by omega⟩
  exact fireFrom_stop f w c d i (by omega)

lemma runActions_logL (fuel : Nat) (w : World T) (d : T) (t : Nat) (h : 2 ≤ fuel) :
    runActions fuel w d (logL t) = some (.ok (addTrace w t d)) := by
  obtain ⟨f, rfl⟩ : ∃ f, fuel = f + 2 := ⟨fuel - 2, by omega⟩
  rfl

/-- Stepping lemma: a block of log-only listeners occupying positions
`pre.length ..` of channel `c`'s array runs through, appending one
`(tag, payload)` observation per listener in registration order, each
iteration consuming one unit of fuel. -/
lemma fireFrom_logs_run (ts : List Nat) :
    ∀ (w : World T) (c : ChannelId) (d : T) (pre rest : List (Listener T)) (fuel : Nat),
    listenersOf w c = pre ++ ts.map logL ++ rest →
    ts.length + 2 ≤ fuel →
    fireFrom fuel w c d pre.length =
      fireFrom (fuel - ts.length) ⟨w.channels, w.trace ++ ts.map (fun t => (t, d))⟩ c d
        (pre.length + ts.length) := by
  induction ts with
  | nil =>
    intro w c d pre rest fuel h hfuel
    simp
  | cons t ts ih =>
    intro w c d pre rest fuel h hfuel
    obtain ⟨f, rfl⟩ : ∃ f, fuel = f + 1 := ⟨fuel - 1, by omega⟩
    have hlen : pre.length < (listenersOf w c).length := by
      rw [h]; simp
    have hsome : (listenersOf w c)[pre.length]? = some (logL t) := by
      rw [h, List.append_assoc, List.getElem?_append_right (le_refl _)]
      simp
    have hget : (listenersOf w c).get ⟨pre.length, hlen⟩ = logL t := by
      have := List.getElem?_eq_getElem hlen
      rw [hsome] at this
      exact (Option.some_injective _ this.symm)
    rw [fireFrom_step_ok f w (addTrace w t d) c d pre.length hlen
      (by rw [hget]; exact runActions_logL f w d t (by simp at hfuel; omega))]
    have h2 : listenersOf (addTrace w t d) c = (pre ++ [logL t]) ++ ts.map logL ++ rest := by
      rw [listenersOf_addTrace, h]
      simp
    have key := ih (addTrace w t d) c d (pre ++ [logL t]) rest f h2 (by simp at hfuel; omega)
    simp only [channels_addTrace, trace_addTrace, List.length_append,
      List.length_singleton] at key
    rw [key]
    congr 1
    · simp
    · simp
    · simp only [List.length_cons]
      omega

/-- Firing a channel whose listeners are exactly log-only listeners with
tags `ts` completes normally, leaving the channel arrays untouched and
appending `(t, d)` for each tag in registration order. -/
lemma fire_logs (w : World T) (c : ChannelId) (d : T) (ts : List Nat) (fuel : Nat)
    (h : listenersOf w c = ts.map logL) (hfuel : ts.length + 2 ≤ fuel) :
    fire fuel w c d = some (.ok ⟨w.channels, w.trace ++ ts.map (fun t => (t, d))⟩) := by
  unfold fire
  have key := fireFrom_logs_run ts w c d [] [] fuel (by simpa using h) hfuel
  simp only [List.length_nil, Nat.zero_add] at key
  rw [key]
  apply fireFrom_at_end
  · have : listenersOf (⟨w.channels, w.trace ++ ts.map (fun t => (t, d))⟩ : World T) c =
        listenersOf w c := rfl
    rw [this, h, List.length_map]
  · omega

/-- The element sitting right after a known prefix of a list. -/
lemma get_eq_of_append_cons {α : Type} {l pre rest : List α} {x : α} {i : Nat}
    (h : l = pre ++ x :: rest) (hi : i = pre.length) (hlen : i < l.length) :
    l.get ⟨i, hlen⟩ = x := by
  subst hi
  have h1 : l[pre.length]? = some x := by
    rw [h, List.getElem?_append_right (le_refl _)]
    simp
  have h2 := List.getElem?_eq_getElem hlen
  rw [h1] at h2
  exact (Option.some_injective _ h2.symm)

@[simp]
lemma world_ok (w : World T) : (RunResult.ok w).world = w := rfl

@[simp]
lemma world_thrown (e : Nat) (w : World T) : (RunResult.thrown e w).world = w := rfl

/-! ### Claim theorems -/

/-- Claim C1: for every channel, every sequence of listeners registered
in order (here: observably distinct log listeners tagged `ts`), and
every payload `d`, a single `fire d` invokes exactly those listeners in
exact registration order, each receiving the same payload `d`: the
observation trace extends by precisely `(t1, d), ..., (tn, d)`. -/
theorem c1_fire_invokes_in_registration_order_with_payload
    (T : Type) (w : World T) (c : ChannelId) (ts : List Nat) (d : T) (fuel : Nat)
    (hls : listenersOf w c = ts.map logL)
    (hfuel : ts.length + 2 ≤ fuel) :
    fire fuel w c d = some (.ok ⟨w.channels, w.trace ++ ts.map (fun t => (t, d))⟩) :=
  fire_logs w c d ts fuel hls hfuel

theorem c1_witness :
    (listenersOf (⟨[[logL 1, logL 2, logL 3]], []⟩ : World Nat) 0 = [1, 2, 3].map logL) ∧
    ([1, 2, 3].length + 2 ≤ 5) ∧
    fire 5 (⟨[[logL 1, logL 2, logL 3]], []⟩ : World Nat) 0 42 =
      some (.ok ⟨[[logL 1, logL 2, logL 3]], [(1, 42), (2, 42), (3, 42)]⟩) :=
  ⟨rfl, by decide,
    c1_fire_invokes_in_registration_order_with_payload Nat
      ⟨[[logL 1, logL 2, logL 3]], []⟩ 0 [1, 2, 3] 42 5 rfl (by decide)⟩

/-- Claim C4: `addPassthroughListener C2` produces exactly the same
channel state as `addListener` of the derived listener whose body,
given payload `d`, invokes C2's `fire` with `d` — and that derived
listener's execution on payload `d` is exactly `fire d` on the target.
No new state beyond the one derived listener entry is introduced. -/
theorem c4_passthrough_equals_addListener_of_derived_listener
    (T : Type) (w : World T) (c target : ChannelId) (w2 : World T) (d : T) (fuel : Nat) :
    addPassthroughListener w c target = addListener w c (passthroughL target) ∧
    runActions (fuel + 2) w2 d (passthroughL target) = fire fuel w2 target d := by
  refine ⟨rfl, ?_⟩
  show runActions (fuel + 1 + 1) w2 d (Action.fireChan target :: []) = fireFrom fuel w2 target d 0
  rcases hr : fireFrom fuel w2 target d 0 with _ | r
  · rw [runActions, runAction_fireChan, hr]
  · rcases r with w' | ⟨e, w'⟩
    · rw [runActions, runAction_fireChan, hr]
      exact runActions_nil fuel w' d
    · rw [runActions, runAction_fireChan, hr]

/-- Claim C5: registering the same listener value twice via
`addListener` creates two independent entries at the end of the
sequence, and a single firing invokes it exactly twice (observed: a
log listener's `(t, d)` event appears exactly twice in the trace). -/
theorem c5_double_registration_invokes_twice
    (T : Type) (w : World T) (c : ChannelId) (a : Listener T) (t : Nat) (d : T) (fuel : Nat)
    (hc : c < w.channels.length) (hempty : listenersOf w c = []) (hfuel : 4 ≤ fuel) :
    listenersOf (addListener (addListener w c a) c a) c = listenersOf w c ++ [a, a] ∧
    fire fuel (addListener (addListener w c (logL t)) c (logL t)) c d =
      some (.ok ⟨(addListener (addListener w c (logL t)) c (logL t)).channels,
                 w.trace ++ [(t, d), (t, d)]⟩) := by
  constructor
  · rw [listenersOf_addListener_self _ _ _ (by simpa using hc),
      listenersOf_addListener_self _ _ _ hc]
    simp
  · have hls : listenersOf (addListener (addListener w c (logL t)) c (logL t)) c =
        [t, t].map logL := by
      rw [listenersOf_addListener_self _ _ _ (by simpa using hc),
        listenersOf_addListener_self _ _ _ hc, hempty]
      simp [logL]
    have := fire_logs (addListener (addListener w c (logL t)) c (logL t)) c d [t, t] fuel
      hls (by simpa using hfuel)
    rw [this]
    simp

theorem c5_witness :
    ((0 : ChannelId) < (⟨[[]], []⟩ : World Nat).channels.length) ∧
    (listenersOf (⟨[[]], []⟩ : World Nat) 0 = []) ∧
    ((4 : Nat) ≤ 4) ∧
    (listenersOf (addListener (addListener (⟨[[]], []⟩ : World Nat) 0 (logL 7)) 0 (logL 7)) 0 =
      listenersOf (⟨[[]], []⟩ : World Nat) 0 ++ [logL 7, logL 7] ∧
    fire 4 (addListener (addListener (⟨[[]], []⟩ : World Nat) 0 (logL 7)) 0 (logL 7)) 0 9 =
      some (.ok ⟨(addListener (addListener (⟨[[]], []⟩ : World Nat) 0 (logL 7)) 0 (logL 7)).channels,
                 [] ++ [(7, 9), (7, 9)]⟩)) :=
  ⟨by decide, rfl, by omega,
    c5_double_registration_invokes_twice Nat ⟨[[]], []⟩ 0 (logL 7) 7 9 4
      (by decide) rfl (by omega)⟩

/-- Claim C6: `makeTypedEventController` returns a channel whose
listener sequence is empty, and firing any channel with zero registered
listeners succeeds for every payload, raises no error, invokes no
listener, and leaves the world exactly unchanged. -/
theorem c6_fresh_channel_empty_and_empty_fire_is_noop
    (T : Type) (w w2 : World T) (c : ChannelId) (d : T) (fuel : Nat)
    (hempty : listenersOf w2 c = []) (hfuel : 1 ≤ fuel) :
    listenersOf (makeTypedEventController w).2 (makeTypedEventController w).1 = [] ∧
    fire fuel w2 c d = some (.ok w2) := by
  constructor
  · show (w.channels ++ [[]]).getD w.channels.length [] = []
    rw [List.getD_eq_getElem?_getD, List.getElem?_concat_length]
    rfl
  · unfold fire
    exact fireFrom_at_end fuel w2 c d 0 (by rw [hempty]; exact Nat.zero_le 0) hfuel

theorem c6_witness :
    (listenersOf (⟨[[]], []⟩ : World Nat) 0 = []) ∧
    ((1 : Nat) ≤ 1) ∧
    (listenersOf (makeTypedEventController (⟨[], []⟩ : World Nat)).2
        (makeTypedEventController (⟨[], []⟩ : World Nat)).1 = [] ∧
      fire 1 (⟨[[]], []⟩ : World Nat) 0 42 = some (.ok ⟨[[]], []⟩)) :=
  ⟨rfl, by omega,
    c6_fresh_channel_empty_and_empty_fire_is_noop Nat ⟨[], []⟩ ⟨[[]], []⟩ 0 42 1 rfl (by omega)⟩

/-- Claim C2: if the listener at position `k` (here: after a prefix of
`ts1` log listeners) throws error `e` during a firing, the listeners
after it (`rest`, arbitrary) are not invoked for that firing — the trace
gains only the prefix's events — and `fire` terminates abnormally with
exactly `e`, unwrapped; and if no listener raises (a channel of log
listeners only), `fire` completes having invoked every current
listener. -/
theorem c2_failing_listener_truncates_and_error_propagates
    (T : Type) (w : World T) (c : ChannelId) (ts1 ts0 : List Nat) (e : Nat)
    (rest : List (Listener T)) (d : T) (fuel : Nat) :
    (listenersOf w c = ts1.map logL ++ [Action.throwErr e] :: rest →
      ts1.length + 3 ≤ fuel →
      fire fuel w c d =
        some (.thrown e ⟨w.channels, w.trace ++ ts1.map (fun t => (t, d))⟩)) ∧
    (listenersOf w c = ts0.map logL → ts0.length + 2 ≤ fuel →
      fire fuel w c d = some (.ok ⟨w.channels, w.trace ++ ts0.map (fun t => (t, d))⟩)) := by
  constructor
  · intro hls hfuel
    unfold fire
    have key := fireFrom_logs_run ts1 w c d [] ([Action.throwErr e] :: rest) fuel
      (by simpa using hls) (by omega)
    simp only [List.length_nil, Nat.zero_add] at key
    rw [key]
    set W1 : World T := ⟨w.channels, w.trace ++ ts1.map (fun t => (t, d))⟩ with hW1def
    obtain ⟨f, hf⟩ : ∃ f, fuel - ts1.length = f + 3 := ⟨fuel - ts1.length - 3, by omega⟩
    rw [hf]
    have hlsW1 : listenersOf W1 c = ts1.map logL ++ [Action.throwErr e] :: rest := hls
    have hlen : ts1.length < (listenersOf W1 c).length := by
      rw [hlsW1]; simp
    have hget : (listenersOf W1 c).get ⟨ts1.length, hlen⟩ = [Action.throwErr e] :=
      get_eq_of_append_cons hlsW1 (by simp) hlen
    exact fireFrom_step_thrown (f + 2) W1 W1 c d ts1.length e hlen (by rw [hget]; rfl)
  · intro hls hfuel
    exact fire_logs w c d ts0 fuel hls hfuel

theorem c2_witness :
    (fire 4 (⟨[[[Action.log 1], [Action.throwErr 5], [Action.log 3]]], []⟩ : World Nat) 0 9 =
      some (.thrown 5
        ⟨[[[Action.log 1], [Action.throwErr 5], [Action.log 3]]], [(1, 9)]⟩)) ∧
    (fire 4 (⟨[[logL 1, logL 2]], []⟩ : World Nat) 0 9 =
      some (.ok ⟨[[logL 1, logL 2]], [(1, 9), (2, 9)]⟩)) :=
  ⟨(c2_failing_listener_truncates_and_error_propagates Nat
      ⟨[[[Action.log 1], [Action.throwErr 5], [Action.log 3]]], []⟩ 0 [1] [] 5
      [[Action.log 3]] 9 4).1 rfl (by decide),
   (c2_failing_listener_truncates_and_error_propagates Nat
      ⟨[[logL 1, logL 2]], []⟩ 0 [] [1, 2] 5 [] 9 4).2 rfl (by decide)⟩

/-- Claim C3: with a passthrough from channel `a` to channel `b`
registered after `a`'s `ts`-tagged direct listeners, and `b` carrying
its `us`-tagged listeners, firing `a` with `d` runs `a`'s earlier
listeners in their relative order and then invokes `b`'s listeners with
the very same payload `d`. -/
theorem c3_passthrough_forwards_payload_to_target
    (T : Type) (w : World T) (a b : ChannelId) (ts us : List Nat) (d : T) (fuel : Nat)
    (hA : listenersOf w a = ts.map logL ++ [passthroughL b])
    (hB : listenersOf w b = us.map logL)
    (hfuel : ts.length + us.length + 6 ≤ fuel) :
    fire fuel w a d =
      some (.ok ⟨w.channels,
        w.trace ++ ts.map (fun t => (t, d)) ++ us.map (fun u => (u, d))⟩) := by
  unfold fire
  have key := fireFrom_logs_run ts w a d [] [passthroughL b] fuel
    (by simpa using hA) (by omega)
  simp only [List.length_nil, Nat.zero_add] at key
  rw [key]
  set W1 : World T := ⟨w.channels, w.trace ++ ts.map (fun t => (t, d))⟩ with hW1def
  obtain ⟨g, hg⟩ : ∃ g, fuel - ts.length = g + 4 := ⟨fuel - ts.length - 4, by omega⟩
  rw [hg]
  have hgus : us.length + 2 ≤ g + 1 := by omega
  have hlsW1a : listenersOf W1 a = ts.map logL ++ passthroughL b :: [] := hA
  have hlen : ts.length < (listenersOf W1 a).length := by
    rw [hlsW1a]; simp
  have hget : (listenersOf W1 a).get ⟨ts.length, hlen⟩ = passthroughL b :=
    get_eq_of_append_cons hlsW1a (by simp) hlen
  have hlsW1b : listenersOf W1 b = us.map logL := hB
  have hfireb := fire_logs W1 b d us (g + 1) hlsW1b hgus
  set W2 : World T := ⟨W1.channels, W1.trace ++ us.map (fun u => (u, d))⟩ with hW2def
  have h1 : runAction (g + 2) W1 d (Action.fireChan b) = some (.ok W2) :=
    (runAction_fireChan (g + 1) W1 d b).trans hfireb
  have hrun : runActions (g + 3) W1 d (passthroughL b) = some (.ok W2) :=
    (runActions_cons_ok (g + 2) W1 W2 d (Action.fireChan b) [] h1).trans
      (runActions_nil (g + 1) W2 d)
  have hstep := fireFrom_step_ok (g + 3) W1 W2 a d ts.length hlen
    (by rw [hget]; exact hrun)
  refine hstep.trans ?_
  apply fireFrom_at_end
  · have hlsW2a : listenersOf W2 a = ts.map logL ++ passthroughL b :: [] := hA
    rw [hlsW2a]
    simp
  · omega

theorem c3_witness :
    (listenersOf (⟨[[logL 1, passthroughL 1], [logL 2]], []⟩ : World Nat) 0 =
      [1].map logL ++ [passthroughL 1]) ∧
    (listenersOf (⟨[[logL 1, passthroughL 1], [logL 2]], []⟩ : World Nat) 1 =
      [2].map logL) ∧
    ([1].length + [2].length + 6 ≤ 8) ∧
    fire 8 (⟨[[logL 1, passthroughL 1], [logL 2]], []⟩ : World Nat) 0 9 =
      some (.ok ⟨[[logL 1, passthroughL 1], [logL 2]], [(1, 9), (2, 9)]⟩) :=
  ⟨rfl, rfl, by decide,
    c3_passthrough_forwards_payload_to_target Nat
      ⟨[[logL 1, passthroughL 1], [logL 2]], []⟩ 0 1 [1] [2] 9 8 rfl rfl (by decide)⟩

/-- Claim C9: re-entrant registration is live, not snapshotted.  If the
listener reached after the `ts`-tagged prefix calls `addListener` on the
same channel (registering a log listener tagged `u`), the new listener
is appended to the live array and is itself invoked with the same
payload `d` later within that same firing. -/
theorem c9_reentrant_registration_is_live
    (T : Type) (w : World T) (c : ChannelId) (ts : List Nat) (u : Nat) (d : T) (fuel : Nat)
    (hc : c < w.channels.length)
    (hls : listenersOf w c = ts.map logL ++ [[Action.addL c (logL u)]])
    (hfuel : ts.length + 5 ≤ fuel) :
    fire fuel w c d =
      some (.ok ⟨w.channels.set c (listenersOf w c ++ [logL u]),
                 w.trace ++ ts.map (fun t => (t, d)) ++ [(u, d)]⟩) := by
  unfold fire
  have key := fireFrom_logs_run ts w c d [] [[Action.addL c (logL u)]] fuel
    (by simpa using hls) (by omega)
  simp only [List.length_nil, Nat.zero_add] at key
  rw [key]
  set W1 : World T := ⟨w.channels, w.trace ++ ts.map (fun t => (t, d))⟩ with hW1def
  obtain ⟨q, hq⟩ : ∃ q, fuel - ts.length = q + 5 := ⟨fuel - ts.length - 5, by omega⟩
  rw [hq]
  have hlsW1 : listenersOf W1 c = ts.map logL ++ [Action.addL c (logL u)] :: [] := hls
  have hlen1 : ts.length < (listenersOf W1 c).length := by
    rw [hlsW1]; simp
  have hget1 : (listenersOf W1 c).get ⟨ts.length, hlen1⟩ = [Action.addL c (logL u)] :=
    get_eq_of_append_cons hlsW1 (by simp) hlen1
  set W2 : World T := addListener W1 c (logL u) with hW2def
  have hrun1 : runActions (q + 4) W1 d [Action.addL c (logL u)] = some (.ok W2) := rfl
  have hstep1 := fireFrom_step_ok (q + 4) W1 W2 c d ts.length hlen1
    (by rw [hget1]; exact hrun1)
  refine hstep1.trans ?_
  have hcW1 : c < W1.channels.length := hc
  have hlsW2 : listenersOf W2 c =
      (ts.map logL ++ [[Action.addL c (logL u)]]) ++ logL u :: [] := by
    rw [hW2def, listenersOf_addListener_self W1 c (logL u) hcW1, hlsW1]
  have hlen2 : ts.length + 1 < (listenersOf W2 c).length := by
    rw [hlsW2]; simp
  have hget2 : (listenersOf W2 c).get ⟨ts.length + 1, hlen2⟩ = logL u :=
    get_eq_of_append_cons hlsW2 (by simp) hlen2
  set W3 : World T := addTrace W2 u d with hW3def
  have hrun2 : runActions (q + 3) W2 d (logL u) = some (.ok W3) :=
    runActions_logL (q + 3) W2 d u (by omega)
  have hstep2 := fireFrom_step_ok (q + 3) W2 W3 c d (ts.length + 1) hlen2
    (by rw [hget2]; exact hrun2)
  refine hstep2.trans ?_
  apply fireFrom_at_end
  · have : listenersOf W3 c =
        (ts.map logL ++ [[Action.addL c (logL u)]]) ++ logL u :: [] := hlsW2
    rw [this]
    simp
  · omega

theorem c9_witness :
    ((0 : ChannelId) < (⟨[[[Action.addL 0 (logL 4)]]], []⟩ : World Nat).channels.length) ∧
    (listenersOf (⟨[[[Action.addL 0 (logL 4)]]], []⟩ : World Nat) 0 =
      [].map logL ++ [[Action.addL 0 (logL 4)]]) ∧
    (([] : List Nat).length + 5 ≤ 5) ∧
    fire 5 (⟨[[[Action.addL 0 (logL 4)]]], []⟩ : World Nat) 0 7 =
      some (.ok ⟨[[[Action.addL 0 (logL 4)], logL 4]], [(4, 7)]⟩) :=
  ⟨by decide, rfl, by decide,
    c9_reentrant_registration_is_live Nat ⟨[[[Action.addL 0 (logL 4)]]], []⟩ 0 [] 4 7 5
      (by decide) rfl (by decide)⟩

/-! ### Listener arrays only ever grow -/

/-- Registration can only append: whatever `addListener` does to any
channel's array, the old array is an exact prefix of the new one. -/
lemma listenersOf_addListener_grow (w : World T) (c : ChannelId) (l : Listener T)
    (ch : ChannelId) :
    ∃ ext, listenersOf (addListener w c l) ch = listenersOf w ch ++ ext := by
  rw [listenersOf_addListener]
  by_cases h : c = ch ∧ c < w.channels.length
  · exact ⟨[l], by rw [if_pos h]⟩
  · exact ⟨[], by rw [if_neg h]; simp⟩

/-- Running listener code never removes or reorders registry entries:
for every channel, the array before is a prefix of the array after,
whether the run completes or throws. -/
lemma run_grow (fuel : Nat) :
    (∀ (w : World T) (d : T) (a : Action T) (r : RunResult T),
      runAction fuel w d a = some r →
      ∀ ch, ∃ ext, listenersOf r.world ch = listenersOf w ch ++ ext) ∧
    (∀ (w : World T) (d : T) (acts : List (Action T)) (r : RunResult T),
      runActions fuel w d acts = some r →
      ∀ ch, ∃ ext, listenersOf r.world ch = listenersOf w ch ++ ext) ∧
    (∀ (w : World T) (c : ChannelId) (d : T) (i : Nat) (r : RunResult T),
      fireFrom fuel w c d i = some r →
      ∀ ch, ∃ ext, listenersOf r.world ch = listenersOf w ch ++ ext) := by
  induction fuel with
  | zero =>
    refine ⟨?_, ?_, ?_⟩
    · intro w d a r h
      exact Option.noConfusion h
    · intro w d acts r h
      exact Option.noConfusion h
    · intro w c d i r h
      exact Option.noConfusion h
  | succ fuel ih =>
    obtain ⟨ihA, ihAs, ihF⟩ := ih
    refine ⟨?_, ?_, ?_⟩
    · intro w d a r h ch
      cases a with
      | log tag =>
        rw [runAction_log] at h
        obtain rfl : RunResult.ok (addTrace w tag d) = r := Option.some_injective _ h
        exact ⟨[], by simp⟩
      | throwErr e =>
        rw [runAction_throwErr] at h
        obtain rfl : RunResult.thrown e w = r := Option.some_injective _ h
        exact ⟨[], by simp⟩
      | fireChan c2 =>
        rw [runAction_fireChan] at h
        exact ihF w c2 d 0 r h ch
      | addL c2 body =>
        rw [runAction_addL] at h
        obtain rfl : RunResult.ok (addListener w c2 body) = r := Option.some_injective _ h
        simpa using listenersOf_addListener_grow w c2 body ch
    · intro w d acts r h ch
      cases acts with
      | nil =>
        rw [runActions_nil] at h
        obtain rfl : RunResult.ok w = r := Option.some_injective _ h
        exact ⟨[], by simp⟩
      | cons a rest =>
        rcases ha : runAction fuel w d a with _ | ra
        · rw [runActions, ha] at h
          exact Option.noConfusion h
        · rcases ra with w' | ⟨e, w'⟩
          · rw [runActions_cons_ok fuel w w' d a rest ha] at h
            obtain ⟨e1, he1⟩ := ihA w d a (.ok w') ha ch
            obtain ⟨e2, he2⟩ := ihAs w' d rest r h ch
            refine ⟨e1 ++ e2, ?_⟩
            rw [he2]
            simp only [world_ok] at he1
            rw [he1, List.append_assoc]
          · rw [runActions_cons_thrown fuel w w' d a rest e ha] at h
            obtain rfl : RunResult.thrown e w' = r := Option.some_injective _ h
            simpa using ihA w d a (.thrown e w') ha ch
    · intro w c d i r h ch
      by_cases hi : i < (listenersOf w c).length
      · rcases hrun : runActions fuel w d ((listenersOf w c).get ⟨i, hi⟩) with _ | rr
        · have hnone : fireFrom (fuel + 1) w c d i = none := by
            rw [fireFrom]
            simp only [dif_pos hi]
            rw [show (listenersOf w c)[i] = (listenersOf w c).get ⟨i, hi⟩ from rfl, hrun]
          rw [hnone] at h
          exact Option.noConfusion h
        · rcases rr with w' | ⟨e, w'⟩
          · rw [fireFrom_step_ok fuel w w' c d i hi hrun] at h
            obtain ⟨e1, he1⟩ := ihAs w d _ (.ok w') hrun ch
            obtain ⟨e2, he2⟩ := ihF w' c d (i + 1) r h ch
            refine ⟨e1 ++ e2, ?_⟩
            rw [he2]
            simp only [world_ok] at he1
            rw [he1, List.append_assoc]
          · rw [fireFrom_step_thrown fuel w w' c d i e hi hrun] at h
            obtain rfl : RunResult.thrown e w' = r := Option.some_injective _ h
            simpa using ihAs w d _ (.thrown e w') hrun ch
      · rw [fireFrom_stop fuel w c d i hi] at h
        obtain rfl : RunResult.ok w = r := Option.some_injective _ h
        exact ⟨[], by simp⟩

/-- Claim C7: the listener sequence only grows.  `addListener` and
`addPassthroughListener` each append exactly one entry at the end of the
targeted channel's sequence, leaving all existing entries and their
order — and every other channel — unchanged; and no channel operation
(`fire` included, whatever its listeners do) ever removes or reorders an
entry: the prior sequence is always an exact prefix of the later one. -/
theorem c7_listener_sequence_only_grows
    (T : Type) (w : World T) (c target ch ch2 : ChannelId) (l : Listener T) (d : T)
    (fuel : Nat) (r : RunResult T)
    (hc : c < w.channels.length)
    (hch2 : c ≠ ch2)
    (hfire : fire fuel w c d = some r) :
    listenersOf (addListener w c l) c = listenersOf w c ++ [l] ∧
    listenersOf (addListener w c l) ch2 = listenersOf w ch2 ∧
    listenersOf (addPassthroughListener w c target) c =
      listenersOf w c ++ [passthroughL target] ∧
    listenersOf (addPassthroughListener w c target) ch2 = listenersOf w ch2 ∧
    (∃ ext, listenersOf r.world ch = listenersOf w ch ++ ext) := by
  refine ⟨listenersOf_addListener_self w c l hc,
    listenersOf_addListener_ne w c l ch2 hch2,
    listenersOf_addListener_self w c (passthroughL target) hc,
    listenersOf_addListener_ne w c (passthroughL target) ch2 hch2,
    ?_⟩
  exact (run_grow fuel).2.2 w c d 0 r hfire ch

theorem c7_witness :
    ((0 : ChannelId) < (⟨[[logL 1]], []⟩ : World Nat).channels.length) ∧
    ((0 : ChannelId) ≠ 1) ∧
    (fire 3 (⟨[[logL 1]], []⟩ : World Nat) 0 8 =
      some (.ok ⟨[[logL 1]], [(1, 8)]⟩)) ∧
    (listenersOf (addListener (⟨[[logL 1]], []⟩ : World Nat) 0 (logL 2)) 0 =
        listenersOf (⟨[[logL 1]], []⟩ : World Nat) 0 ++ [logL 2] ∧
      listenersOf (addListener (⟨[[logL 1]], []⟩ : World Nat) 0 (logL 2)) 1 =
        listenersOf (⟨[[logL 1]], []⟩ : World Nat) 1 ∧
      listenersOf (addPassthroughListener (⟨[[logL 1]], []⟩ : World Nat) 0 1) 0 =
        listenersOf (⟨[[logL 1]], []⟩ : World Nat) 0 ++ [passthroughL 1] ∧
      listenersOf (addPassthroughListener (⟨[[logL 1]], []⟩ : World Nat) 0 1) 1 =
        listenersOf (⟨[[logL 1]], []⟩ : World Nat) 1 ∧
      (∃ ext, listenersOf (RunResult.ok (⟨[[logL 1]], [(1, 8)]⟩ : World Nat)).world 0 =
        listenersOf (⟨[[logL 1]], []⟩ : World Nat) 0 ++ ext)) :=
  ⟨by decide, by decide, rfl,
    c7_listener_sequence_only_grows Nat ⟨[[logL 1]], []⟩ 0 1 0 1 (logL 2) 8 3
      (.ok ⟨[[logL 1]], [(1, 8)]⟩) (by decide) (by decide) rfl⟩

/-! ### `fire` itself never touches the registry -/

/-- An action (transitively) never registers a listener on channel `c`. -/
inductive Avoids (c : ChannelId) : Action T → Prop where
  | log (tag : Nat) : Avoids c (.log tag)
  | throwErr (e : Nat) : Avoids c (.throwErr e)
  | fireChan (t : ChannelId) : Avoids c (.fireChan t)
  | addL (t : ChannelId) (body : List (Action T)) :
      t ≠ c → (∀ a ∈ body, Avoids c a) → Avoids c (.addL t body)

/-- No listener reachable anywhere in the world registers on channel
`c`: the formal reading of "the invoked listeners do not register
listeners on this channel". -/
def WorldAvoids (c : ChannelId) (w : World T) : Prop :=
  ∀ ch, ∀ l ∈ listenersOf w ch, ∀ a ∈ l, Avoids c a

lemma worldAvoids_addTrace (c : ChannelId) (w : World T) (tag : Nat) (d : T)
    (hw : WorldAvoids c w) : WorldAvoids c (addTrace w tag d) := hw

lemma worldAvoids_addListener (c : ChannelId) (w : World T) (t : ChannelId)
    (body : Listener T) (hw : WorldAvoids c w) (hbody : ∀ a ∈ body, Avoids c a) :
    WorldAvoids c (addListener w t body) := by
  intro ch l hl a ha
  rw [listenersOf_addListener] at hl
  by_cases h : t = ch ∧ t < w.channels.length
  · rw [if_pos h] at hl
    rcases List.mem_append.mp hl with hold | hnew
    · exact hw ch l hold a ha
    · rw [List.mem_singleton.mp hnew] at ha
      exact hbody a ha
  · rw [if_neg h] at hl
    exact hw ch l hl a ha

/-- If no reachable listener registers on channel `c`, running listener
code leaves `c`'s array exactly as it was, and the avoidance property
is preserved. -/
lemma run_avoids (c : ChannelId) (fuel : Nat) :
    (∀ (w : World T) (d : T) (a : Action T) (r : RunResult T),
      WorldAvoids c w → Avoids c a → runAction fuel w d a = some r →
      listenersOf r.world c = listenersOf w c ∧ WorldAvoids c r.world) ∧
    (∀ (w : World T) (d : T) (acts : List (Action T)) (r : RunResult T),
      WorldAvoids c w → (∀ a ∈ acts, Avoids c a) → runActions fuel w d acts = some r →
      listenersOf r.world c = listenersOf w c ∧ WorldAvoids c r.world) ∧
    (∀ (w : World T) (ch : ChannelId) (d : T) (i : Nat) (r : RunResult T),
      WorldAvoids c w → fireFrom fuel w ch d i = some r →
      listenersOf r.world c = listenersOf w c ∧ WorldAvoids c r.world) := by
  induction fuel with
  | zero =>
    refine ⟨?_, ?_, ?_⟩
    · intro w d a r _ _ h
      exact Option.noConfusion h
    · intro w d acts r _ _ h
      exact Option.noConfusion h
    · intro w ch d i r _ h
      exact Option.noConfusion h
  | succ fuel ih =>
    obtain ⟨ihA, ihAs, ihF⟩ := ih
    refine ⟨?_, ?_, ?_⟩
    · intro w d a r hw hav h
      cases hav with
      | log tag =>
        rw [runAction_log] at h
        obtain rfl : RunResult.ok (addTrace w tag d) = r := Option.some_injective _ h
        exact ⟨rfl, worldAvoids_addTrace c w tag d hw⟩
      | throwErr e =>
        rw [runAction_throwErr] at h
        obtain rfl : RunResult.thrown e w = r := Option.some_injective _ h
        exact ⟨rfl, hw⟩
      | fireChan t =>
        rw [runAction_fireChan] at h
        exact ihF w t d 0 r hw h
      | addL t body hne hbody =>
        rw [runAction_addL] at h
        obtain rfl : RunResult.ok (addListener w t body) = r := Option.some_injective _ h
        refine ⟨?_, worldAvoids_addListener c w t body hw hbody⟩
        simpa using listenersOf_addListener_ne w t body c (fun hh => hne hh)
    · intro w d acts r hw hav h
      cases acts with
      | nil =>
        rw [runActions_nil] at h
        obtain rfl : RunResult.ok w = r := Option.some_injective _ h
        exact ⟨rfl, hw⟩
      | cons a rest =>
        rcases ha : runAction fuel w d a with _ | ra
        · rw [runActions, ha] at h
          exact Option.noConfusion h
        · rcases ra with w' | ⟨e, w'⟩
          · rw [runActions_cons_ok fuel w w' d a rest ha] at h
            obtain ⟨h1, hw1⟩ := ihA w d a (.ok w') hw (hav a (by simp)) ha
            obtain ⟨h2, hw2⟩ := ihAs w' d rest r hw1 (fun x hx => hav x (by simp [hx])) h
            simp only [world_ok] at h1 hw1
            exact ⟨h2.trans h1, hw2⟩
          · rw [runActions_cons_thrown fuel w w' d a rest e ha] at h
            obtain rfl : RunResult.thrown e w' = r := Option.some_injective _ h
            have := ihA w d a (.thrown e w') hw (hav a (by simp)) ha
            simpa using this
    · intro w ch d i r hw h
      by_cases hi : i < (listenersOf w ch).length
      · rcases hrun : runActions fuel w d ((listenersOf w ch).get ⟨i, hi⟩) with _ | rr
        · have hnone : fireFrom (fuel + 1) w ch d i = none := by
            rw [fireFrom]
            simp only [dif_pos hi]
            rw [show (listenersOf w ch)[i] = (listenersOf w ch).get ⟨i, hi⟩ from rfl, hrun]
          rw [hnone] at h
          exact Option.noConfusion h
        · have hmem : (listenersOf w ch).get ⟨i, hi⟩ ∈ listenersOf w ch :=
            List.get_mem _ _ hi
          have hav : ∀ a ∈ (listenersOf w ch).get ⟨i, hi⟩, Avoids c a :=
            hw ch _ hmem
          rcases rr with w' | ⟨e, w'⟩
          · rw [fireFrom_step_ok fuel w w' ch d i hi hrun] at h
            obtain ⟨h1, hw1⟩ := ihAs w d _ (.ok w') hw hav hrun
            simp only [world_ok] at h1 hw1
            obtain ⟨h2, hw2⟩ := ihF w' ch d (i + 1) r hw1 h
            exact ⟨h2.trans h1, hw2⟩
          · rw [fireFrom_step_thrown fuel w w' ch d i e hi hrun] at h
            obtain rfl : RunResult.thrown e w' = r := Option.some_injective _ h
            have := ihAs w d _ (.thrown e w') hw hav hrun
            simpa using this
      · rw [fireFrom_stop fuel w ch d i hi] at h
        obtain rfl : RunResult.ok w = r := Option.some_injective _ h
        exact ⟨rfl, hw⟩

/-- Claim C10: `fire` never itself modifies the listener registry.
Provided no reachable listener registers a listener on the fired
channel, the channel's listener sequence after `fire` returns — whether
it completed normally or terminated abnormally on a thrown error — is
exactly the sequence before the call. -/
theorem c10_fire_does_not_modify_registry
    (T : Type) (w : World T) (c : ChannelId) (d : T) (fuel : Nat) (r : RunResult T)
    (havoid : WorldAvoids c w) (hfire : fire fuel w c d = some r) :
    listenersOf r.world c = listenersOf w c :=
  ((run_avoids c fuel).2.2 w c d 0 r havoid hfire).1

theorem c10_witness :
    (WorldAvoids 0 (⟨[[logL 3, [Action.throwErr 6]]], []⟩ : World Nat)) ∧
    (fire 4 (⟨[[logL 3, [Action.throwErr 6]]], []⟩ : World Nat) 0 7 =
      some (.thrown 6 ⟨[[logL 3, [Action.throwErr 6]]], [(3, 7)]⟩)) ∧
    listenersOf (RunResult.thrown 6
        (⟨[[logL 3, [Action.throwErr 6]]], [(3, 7)]⟩ : World Nat)).world 0 =
      listenersOf (⟨[[logL 3, [Action.throwErr 6]]], []⟩ : World Nat) 0 := by
  have havoid : WorldAvoids 0 (⟨[[logL 3, [Action.throwErr 6]]], []⟩ : World Nat) := by
    intro ch l hl a ha
    match ch with
    | 0 =>
      simp only [listenersOf_mk, List.getD_cons_zero] at hl
      rcases List.mem_cons.mp hl with rfl | hl2
      · rw [List.mem_singleton.mp ha]
        exact Avoids.log 3
      · rw [List.mem_singleton.mp hl2] at ha
        rw [List.mem_singleton.mp ha]
        exact Avoids.throwErr 6
    | ch + 1 =>
      simp [listenersOf] at hl
  have hfire : fire 4 (⟨[[logL 3, [Action.throwErr 6]]], []⟩ : World Nat) 0 7 =
      some (.thrown 6 ⟨[[logL 3, [Action.throwErr 6]]], [(3, 7)]⟩) := rfl
  exact ⟨havoid, hfire,
    c10_fire_does_not_modify_registry Nat ⟨[[logL 3, [Action.throwErr 6]]], []⟩ 0 7 4
      (.thrown 6 ⟨[[logL 3, [Action.throwErr 6]]], [(3, 7)]⟩) havoid hfire⟩

/-! ### The Subscribable View's operation set -/

/-- The operations exposed by the `TypedEvent<T>` interface (source
lines 33-54): exactly `addListener` and `addPassthroughListener`.
`fire` is declared only on `TypedEventController<T>` (lines 59-67). -/
inductive SubscribableOp (T : Type) where
  | addListener (l : Listener T)
  | addPassthroughListener (target : ChannelId)

/-- Effect of one Subscribable-view operation on a channel. -/
def runSubscribableOp (w : World T) (c : ChannelId) : SubscribableOp T → World T
  | .addListener l => addListener w c l
  | .addPassthroughListener t => addPassthroughListener w c t

/-- Effect of any sequence of Subscribable-view operations. -/
def runSubscribableOps (w : World T) (c : ChannelId) : List (SubscribableOp T) → World T
  | [] => w
  | op :: rest => runSubscribableOps (runSubscribableOp w c op) c rest

/-- Claim C8: the Subscribable View exposes exactly `addListener` and
`addPassthroughListener` and not the firing operation; consequently a
holder of only that view can never declare an occurrence: no sequence
of Subscribable-view operations ever invokes a listener or produces any
occurrence (the observation trace is untouched). -/
theorem c8_subscribable_view_cannot_fire
    (T : Type) (w : World T) (c : ChannelId) (op : SubscribableOp T)
    (ops : List (SubscribableOp T)) :
    ((∃ l, op = .addListener l) ∨ (∃ t, op = .addPassthroughListener t)) ∧
    (runSubscribableOps w c ops).trace = w.trace := by
  constructor
  · cases op with
    | addListener l => exact Or.inl ⟨l, rfl⟩
    | addPassthroughListener t => exact Or.inr ⟨t, rfl⟩
  · induction ops generalizing w with
    | nil => rfl
    | cons op2 rest ih =>
      have hstep : (runSubscribableOp w c op2).trace = w.trace := by
        cases op2 <;> rfl
      calc (runSubscribableOps w c (op2 :: rest)).trace
          = (runSubscribableOp w c op2).trace := ih (runSubscribableOp w c op2)
        _ = w.trace := hstep

end TsBasics
